import Mathlib

/-!
Verification of the Lenia Lab simulation core.

This file gives a shallow embedding, over the real numbers, of the
algorithmic core of the lenia-lab repository:

* `bell`, `growth` — the Gaussian bell and growth function shared by
  `src/gl/kernels.ts` and the update shader of `src/gl/shaders.ts`;
* `convTerm`, `potentialSum`, `kernelSum`, `potentialAt`, `stepCell` — the
  per-cell body of `UPDATE_SHADER` (convolution with toroidal wraparound,
  epsilon skip of weights below 0.001, potential normalization, growth,
  and the clamp to [0,1]);
* `brushCell`, `stampCell` — the per-cell bodies of `BRUSH_SHADER` and
  `STAMP_SHADER`;
* `GLState`, `setState`, `readState` — the ping-pong buffer bookkeeping of
  `LeniaRenderer` in `src/gl/renderer.ts`, at the level of the scalar
  (R-channel) cell values;
* `kernelShell`, `kernelRaw`, `generateKernel` — `generateKernel` of
  `src/gl/kernels.ts` (multi-ring kernel synthesis with unit-disk cutoff
  and sum normalization);
* `engineKernelEntry` — the kernel table built by
  `LeniaEngine.updateKernel` in `src/engine/LeniaEngine.ts` (cutoff at
  distance R + 0.5, no per-entry normalization);
* `mutTick`, `mutWalk` — the mutation-mode random walk on (mu, sigma, dt)
  from `App.tsx` with the step sizes and clamp ranges of `constants.ts`.

Machine floats are modelled as exact reals; grid coordinates are integers
and wraparound is integer `emod`, matching `fract`-based UV wrapping of the
shaders on exact arithmetic.
-/

namespace LeniaLab

/-- The Gaussian bell of `src/gl/kernels.ts` and of the update shader:
`d = (x - mu)/sigma; exp(-d*d/2)`. -/
noncomputable def bell (x mu sigma : ℝ) : ℝ :=
  let d := (x - mu) / sigma
  Real.exp (-(d * d) / 2)

/-- The growth function of `UPDATE_SHADER`: `2*bell(u, mu, sigma) - 1`. -/
noncomputable def growth (u mu sigma : ℝ) : ℝ :=
  2 * bell u mu sigma - 1

/-- Kernel offsets scanned by the convolution loops: all `(dx, dy)` with
`|dx| ≤ R` and `|dy| ≤ R` (the shader loop runs `-50..50` and skips
offsets beyond the radius, which is the same set for `R ≤ 50`). -/
def offsets (R : ℕ) : Finset (ℤ × ℤ) :=
  Finset.Icc (-(R : ℤ)) (R : ℤ) ×ˢ Finset.Icc (-(R : ℤ)) (R : ℤ)

/-- One summand of the convolution in `UPDATE_SHADER`: weights below the
epsilon 0.001 are skipped; otherwise the state is sampled at
`(x+dx, y+dy)` with toroidal wraparound (`fract` in UV space, i.e. `emod`
on integer grid coordinates) and multiplied by the kernel weight. -/
noncomputable def convTerm (w h : ℕ) (field K : ℤ → ℤ → ℝ) (x y dx dy : ℤ) : ℝ :=
  if K dx dy < 1 / 1000 then 0
  else K dx dy * field ((x + dx) % (w : ℤ)) ((y + dy) % (h : ℤ))

/-- One summand of the `kernelSum` accumulator of `UPDATE_SHADER` (same
epsilon skip as the potential accumulator). -/
noncomputable def kernelSumTerm (K : ℤ → ℤ → ℝ) (dx dy : ℤ) : ℝ :=
  if K dx dy < 1 / 1000 then 0 else K dx dy

/-- The `potential` accumulator of `UPDATE_SHADER` before normalization. -/
noncomputable def potentialSum (w h : ℕ) (field K : ℤ → ℤ → ℝ) (R : ℕ) (x y : ℤ) : ℝ :=
  ∑ q in offsets R, convTerm w h field K x y q.1 q.2

/-- The `kernelSum` accumulator of `UPDATE_SHADER`. -/
noncomputable def kernelSum (K : ℤ → ℤ → ℝ) (R : ℕ) : ℝ :=
  ∑ q in offsets R, kernelSumTerm K q.1 q.2

/-- The normalized potential of `UPDATE_SHADER`:
`if (kernelSum > 0.0) potential /= kernelSum`. -/
noncomputable def potentialAt (w h : ℕ) (field K : ℤ → ℤ → ℝ) (R : ℕ) (x y : ℤ) : ℝ :=
  if kernelSum K R > 0 then potentialSum w h field K R x y / kernelSum K R
  else potentialSum w h field K R x y

/-- The per-cell body of `UPDATE_SHADER`:
`newState = clamp(currentState + dt * growth, 0.0, 1.0)` where GLSL
`clamp(v, 0, 1) = min(max(v, 0), 1)`. -/
noncomputable def stepCell (w h : ℕ) (field K : ℤ → ℤ → ℝ) (R : ℕ)
    (mu sigma dt : ℝ) (x y : ℤ) : ℝ :=
  min 1 (max 0 (field x y + dt * growth (potentialAt w h field K R x y) mu sigma))

/-- GLSL `smoothstep(e0, e1, x)` as evaluated generically:
`t = clamp((x-e0)/(e1-e0), 0, 1); t*t*(3-2t)`. -/
noncomputable def glslSmoothstep (e0 e1 x : ℝ) : ℝ :=
  let t := min 1 (max 0 ((x - e0) / (e1 - e0)))
  t * t * (3 - 2 * t)

/-- The per-cell body of `BRUSH_SHADER`: smooth falloff from the brush
centre, then `clamp(current + brush*value*strength, 0, 1)`. -/
noncomputable def brushCell (cur ux uy bx bY radius value strength : ℝ) : ℝ :=
  let dist := Real.sqrt ((ux - bx) * (ux - bx) + (uy - bY) * (uy - bY))
  let b := glslSmoothstep radius (radius * (3 / 10)) dist
  min 1 (max 0 (cur + b * value * strength))

/-- The per-cell body of `STAMP_SHADER`: the cell UV is mapped into stamp
space, and inside the unit square the state is max-blended with the stamp
pattern; outside it is left unchanged. -/
noncomputable def stampCell (cur ux uy px py sx sy : ℝ) (pat : ℝ → ℝ → ℝ) : ℝ :=
  let su := (ux - px) / sx + 1 / 2
  let sv := (uy - py) / sy + 1 / 2
  if 0 ≤ su ∧ su ≤ 1 ∧ 0 ≤ sv ∧ sv ≤ 1 then max cur (pat su sv) else cur

/-- The double-buffered state of `LeniaRenderer`: two same-shape scalar
buffers (the R channel of the RGBA textures) and the `currentTex` flag. -/
structure GLState where
  width : ℕ
  height : ℕ
  bufA : ℕ → ℝ
  bufB : ℕ → ℝ
  currentIsA : Bool

/-- The buffer currently designated as `current` by the ping-pong flag. -/
def curBuf (s : GLState) : ℕ → ℝ :=
  if s.currentIsA then s.bufA else s.bufB

/-- `texSubImage2D` over the full grid: cells `0 .. n-1` are overwritten
with the supplied data (R channel), the rest of the buffer is unchanged. -/
def writeCells (buf : ℕ → ℝ) (n : ℕ) (data : List ℝ) : ℕ → ℝ :=
  fun i => if i < n then data.getD i 0 else buf i

/-- `LeniaRenderer.setState`: uploads `data` into the currently-active
texture; the ping-pong flag is not toggled. -/
def setState (s : GLState) (data : List ℝ) : GLState :=
  if s.currentIsA then { s with bufA := writeCells s.bufA (s.width * s.height) data }
  else { s with bufB := writeCells s.bufB (s.width * s.height) data }

/-- `LeniaRenderer.readState`: reads the `width*height` cell values back
from the currently-active texture. -/
def readState (s : GLState) : List ℝ :=
  (List.range (s.width * s.height)).map (curBuf s)

/-- `KernelParams` of `src/gl/kernels.ts`: radius plus parallel lists of
ring heights (`peaks`), ring centres and ring widths. -/
structure KernelParams where
  radius : ℕ
  peaks : List ℝ
  peakCenters : List ℝ
  peakWidths : List ℝ

/-- The multi-ring mixture evaluated at normalized distance `r`: the inner
loop `value += height * bell(r, center, width)` of `generateKernel`. -/
noncomputable def kernelShell (p : KernelParams) (r : ℝ) : ℝ :=
  ∑ i in Finset.range p.peaks.length,
    p.peaks.getD i 0 * bell r (p.peakCenters.getD i 0) (p.peakWidths.getD i 0)

/-- The unnormalized kernel entry of `generateKernel` at offset `(dx, dy)`:
`r = sqrt(dx*dx + dy*dy)/R`; entries with `r > 1` are zeroed. -/
noncomputable def kernelRaw (p : KernelParams) (dx dy : ℤ) : ℝ :=
  let r := Real.sqrt ((dx * dx + dy * dy : ℤ) : ℝ) / (p.radius : ℝ)
  if r > 1 then 0 else kernelShell p r

/-- The accumulated `sum` of all unnormalized entries in `generateKernel`. -/
noncomputable def kernelRawSum (p : KernelParams) : ℝ :=
  ∑ q in offsets p.radius, kernelRaw p q.1 q.2

/-- `generateKernel` of `src/gl/kernels.ts`, viewed as a map from offsets
to weights (the flat array index is `(dy+R)*size + (dx+R)`): every entry
is divided by the total sum when that sum is positive. -/
noncomputable def generateKernel (p : KernelParams) (dx dy : ℤ) : ℝ :=
  if kernelRawSum p > 0 then kernelRaw p dx dy / kernelRawSum p
  else kernelRaw p dx dy

/-- The sum of all entries of the built kernel. -/
noncomputable def generateKernelSum (p : KernelParams) : ℝ :=
  ∑ q in offsets p.radius, generateKernel p q.1 q.2

/-- A valid `KernelParams` per the data model: positive integer radius, at
least one ring, parallel lists, and every ring with positive height and
positive width. -/
def ValidKernelParams (p : KernelParams) : Prop :=
  0 < p.radius ∧ p.peaks ≠ [] ∧
  p.peakCenters.length = p.peaks.length ∧ p.peakWidths.length = p.peaks.length ∧
  (∀ a ∈ p.peaks, 0 < a) ∧ (∀ a ∈ p.peakWidths, 0 < a)

/-- A kernel ring of the WebGL2 engine (`src/types.ts`). -/
structure KernelRing where
  mu : ℝ
  sigma : ℝ
  weight : ℝ

/-- One ring's contribution in `LeniaEngine.updateKernel`:
`d = (dist/R - ring.mu)/ring.sigma; ring.weight * exp(-0.5*d*d)`. -/
noncomputable def engineRingTerm (R : ℕ) (dist : ℝ) (ring : KernelRing) : ℝ :=
  let d := (dist / (R : ℝ) - ring.mu) / ring.sigma
  ring.weight * Real.exp (-(1 / 2) * (d * d))

/-- The kernel table entry built by `LeniaEngine.updateKernel` at offset
`(ox, oy)`: zero beyond distance `R + 0.5`, otherwise the ring mixture
(entries are stored unnormalized; the accumulated norm is applied in the
step shader). -/
noncomputable def engineKernelEntry (R : ℕ) (rings : List KernelRing) (ox oy : ℤ) : ℝ :=
  let dist := Real.sqrt ((ox * ox + oy * oy : ℤ) : ℝ)
  if dist > (R : ℝ) + 1 / 2 then 0
  else (rings.map (engineRingTerm R dist)).sum

/-- The accumulated `norm` of `LeniaEngine.updateKernel` — the sum of all
entries of the engine kernel table. It is stored as `kernelNorm` and
applied in the step shader (`total / max(u_kernelNorm, 0.001)`); the
table itself is uploaded unnormalized. -/
noncomputable def engineKernelSum (R : ℕ) (rings : List KernelRing) : ℝ :=
  ∑ q in offsets R, engineKernelEntry R rings q.1 q.2

/-- The Orbium ring list of `src/species.ts`:
`[{ mu: 0.5, sigma: 0.15, weight: 1.0 }]`. -/
noncomputable def ORBIUM_RINGS : List KernelRing :=
  [⟨1 / 2, 3 / 20, 1⟩]

/-- `Math.max(lo, Math.min(hi, x))`, the clamp used by the mutation walk
in `App.tsx`. -/
noncomputable def clampR (lo hi x : ℝ) : ℝ :=
  max lo (min hi x)

/-- Mutation-mode step size for `mu` (`MUTATION_MU_STEP = 0.003`). -/
noncomputable def MUTATION_MU_STEP : ℝ := 3 / 1000

/-- Mutation-mode step size for `sigma` (`MUTATION_SIGMA_STEP = 0.001`). -/
noncomputable def MUTATION_SIGMA_STEP : ℝ := 1 / 1000

/-- Mutation-mode step size for `dt` (`MUTATION_DT_STEP = 0.005`). -/
noncomputable def MUTATION_DT_STEP : ℝ := 5 / 1000

/-- One tick of the mutation random walk in `App.tsx`: each of
`(mu, sigma, dt)` receives its increment and is clamped into its safe
range (`GROWTH_MU_RANGE = [0.01, 0.5]`, `GROWTH_SIGMA_RANGE =
[0.001, 0.1]`, `DT_RANGE = [0.01, 0.5]` from `constants.ts`). -/
noncomputable def mutTick (s d : ℝ × ℝ × ℝ) : ℝ × ℝ × ℝ :=
  (clampR (1 / 100) (1 / 2) (s.1 + d.1),
   clampR (1 / 1000) (1 / 10) (s.2.1 + d.2.1),
   clampR (1 / 100) (1 / 2) (s.2.2 + d.2.2))

/-- The full trajectory of the mutation walk from `s` under a list of
increment triples: the start state and every state after each tick. -/
noncomputable def mutWalk (s : ℝ × ℝ × ℝ) : List (ℝ × ℝ × ℝ) → List (ℝ × ℝ × ℝ)
  | [] => [s]
  | d :: ds => s :: mutWalk (mutTick s d) ds

/-- The documented safe ranges for `(mu, sigma, dt)` from `constants.ts`. -/
def mutInRange (s : ℝ × ℝ × ℝ) : Prop :=
  1 / 100 ≤ s.1 ∧ s.1 ≤ 1 / 2 ∧
  1 / 1000 ≤ s.2.1 ∧ s.2.1 ≤ 1 / 10 ∧
  1 / 100 ≤ s.2.2 ∧ s.2.2 ≤ 1 / 2

/-- Elements of the fresh `Float32Array(w*h*4)` that
`LeniaRenderer.readAverageDensity` allocates on each call (the `pixels`
readback buffer in `src/gl/renderer.ts`). -/
def readDensityAllocElems (w h : ℕ) : ℕ :=
  w * h * 4

/-- The value computed by `readAverageDensity`: mean of the cell values. -/
noncomputable def readAverageDensity (w h : ℕ) (field : ℕ → ℝ) : ℝ :=
  (∑ i in Finset.range (w * h), field i) / (w * h : ℝ)

/-- A field with a single active cell at `(a, b)` and zero elsewhere. -/
noncomputable def onehot (a b : ℤ) : ℤ → ℤ → ℝ :=
  fun x y => if x = a ∧ y = b then 1 else 0

/-- GLSL `clamp(x, 0, 1)` lands in `[0, 1]`. -/
theorem clamp01_mem (x : ℝ) : 0 ≤ min 1 (max 0 x) ∧ min 1 (max 0 x) ≤ 1 :=
  ⟨le_min zero_le_one (le_max_left 0 x), min_le_left 1 _⟩

/-- `clampR lo hi` lands in `[lo, hi]` whenever `lo ≤ hi`. -/
theorem clampR_mem (lo hi x : ℝ) (h : lo ≤ hi) :
    lo ≤ clampR lo hi x ∧ clampR lo hi x ≤ hi :=
  ⟨le_max_left _ _, max_le h (min_le_left _ _)⟩

/-- Every mutation tick lands in the documented safe ranges, whatever the
input state and increments. -/
theorem mutTick_mem (s d : ℝ × ℝ × ℝ) : mutInRange (mutTick s d) :=
  ⟨(clampR_mem _ _ _ (by norm_num)).1, (clampR_mem _ _ _ (by norm_num)).2,
   (clampR_mem _ _ _ (by norm_num)).1, (clampR_mem _ _ _ (by norm_num)).2,
   (clampR_mem _ _ _ (by norm_num)).1, (clampR_mem _ _ _ (by norm_num)).2⟩

/-- A `getD` lookup is either a list element or the default. -/
theorem getD_mem_or_default (data : List ℝ) (i : ℕ) :
    data.getD i 0 ∈ data ∨ data.getD i 0 = 0 := by
  induction data generalizing i with
  | nil => right; rfl
  | cons a l ih =>
    cases i with
    | zero => left; simp
    | succ n =>
      rcases ih n with hmem | hdef
      · left
        simpa using Or.inr hmem
      · right
        simpa using hdef

/-- Reading a list back through `getD` over its index range reproduces it. -/
theorem map_range_getD (data : List ℝ) :
    (List.range data.length).map (fun i => data.getD i 0) = data := by
  apply List.ext_get
  · simp
  · intro n h1 h2
    simp [List.getD_eq_get, h2]

/-- The stamp-space interval test of `STAMP_SHADER` is exactly the
bounding-box test in UV space (for a positive stamp size). -/
theorem uvbox_iff (s t : ℝ) (hs : 0 < s) :
    (0 ≤ t / s + 1 / 2 ∧ t / s + 1 / 2 ≤ 1) ↔ |t| ≤ s / 2 := by
  rw [abs_le]
  constructor
  · rintro ⟨h1, h2⟩
    have ha : -(1 / 2 : ℝ) ≤ t / s := by linarith
    have hb : t / s ≤ 1 / 2 := by linarith
    have ha2 : -(1 / 2 : ℝ) * s ≤ t := (le_div_iff hs).mp ha
    have hb2 : t ≤ 1 / 2 * s := (div_le_iff hs).mp hb
    constructor <;> linarith
  · rintro ⟨h1, h2⟩
    have ha : -(1 / 2 : ℝ) * s ≤ t := by linarith
    have hb : t ≤ 1 / 2 * s := by linarith
    have ha2 : -(1 / 2 : ℝ) ≤ t / s := (le_div_iff hs).mpr ha
    have hb2 : t / s ≤ 1 / 2 := (div_le_iff hs).mpr hb
    constructor <;> linarith

/-- Claim C1: every mutation of the field — step, brush, stamp and
explicit state-set — leaves every cell of the resulting field in `[0, 1]`.
The step and brush cells are clamped unconditionally; stamp needs the
current cell and the pattern values in `[0, 1]`; `setState` needs the
uploaded data in `[0, 1]` (cells past the data length read the default 0). -/
theorem mutations_preserve_unit_interval :
    (∀ (w h : ℕ) (field K : ℤ → ℤ → ℝ) (R : ℕ) (mu sigma dt : ℝ) (x y : ℤ),
        0 ≤ stepCell w h field K R mu sigma dt x y ∧
          stepCell w h field K R mu sigma dt x y ≤ 1) ∧
    (∀ cur ux uy bx bY radius value strength : ℝ,
        0 ≤ brushCell cur ux uy bx bY radius value strength ∧
          brushCell cur ux uy bx bY radius value strength ≤ 1) ∧
    (∀ (cur ux uy px py sx sy : ℝ) (pat : ℝ → ℝ → ℝ),
        0 ≤ cur → cur ≤ 1 → (∀ u v, 0 ≤ pat u v ∧ pat u v ≤ 1) →
        0 ≤ stampCell cur ux uy px py sx sy pat ∧
          stampCell cur ux uy px py sx sy pat ≤ 1) ∧
    (∀ (s : GLState) (data : List ℝ), (∀ a ∈ data, 0 ≤ a ∧ a ≤ 1) →
        ∀ c ∈ readState (setState s data), 0 ≤ c ∧ c ≤ 1) := by
  refine ⟨?_, ?_, ?_, ?_⟩
  · intro w h field K R mu sigma dt x y
    exact clamp01_mem _
  · intro cur ux uy bx bY radius value strength
    exact clamp01_mem _
  · intro cur ux uy px py sx sy pat h0 h1 hp
    simp only [stampCell]
    split
    · exact ⟨le_max_of_le_left h0, max_le h1 (hp _ _).2⟩
    · exact ⟨h0, h1⟩
  · intro s data hdata c hc
    have hcb : curBuf (setState s data) = writeCells (curBuf s) (s.width * s.height) data := by
      by_cases hA : s.currentIsA = true
      · simp [setState, curBuf, hA]
      · simp [setState, curBuf, hA]
    have hw : (setState s data).width = s.width := by
      unfold setState; split <;> rfl
    have hh : (setState s data).height = s.height := by
      unfold setState; split <;> rfl
    rw [readState, hw, hh, hcb] at hc
    rcases List.mem_map.mp hc with ⟨i, hi, hci⟩
    rw [List.mem_range] at hi
    rw [writeCells] at hci
    simp only [hi, if_pos] at hci
    rcases getD_mem_or_default data i with hmem | hdef
    · exact hci ▸ hdata _ hmem
    · rw [← hci, hdef]
      norm_num

/-- Witness for C1: the stamp conjunct at a concrete in-range cell,
position, scale and constant pattern. -/
theorem mutations_preserve_unit_interval_witness :
    0 ≤ stampCell (1 / 2) (1 / 2) (1 / 2) (1 / 2) (1 / 2) (3 / 20) (3 / 20)
      (fun _ _ => 1 / 2) ∧
    stampCell (1 / 2) (1 / 2) (1 / 2) (1 / 2) (1 / 2) (3 / 20) (3 / 20)
      (fun _ _ => 1 / 2) ≤ 1 :=
  mutations_preserve_unit_interval.2.2.1 (1 / 2) (1 / 2) (1 / 2) (1 / 2) (1 / 2)
    (3 / 20) (3 / 20) (fun _ _ => 1 / 2) (by norm_num) (by norm_num)
    (fun u v => by norm_num)

/-- Claim C6: the convolution of the update shader wraps neighbour
coordinates modulo the grid size. With the single active cell at `(0, 0)`,
the cell at `(w - dx, h - dy)` near the right/bottom edge receives, at
kernel offset `(dx, dy)`, a contribution equal to the kernel weight — the
same contribution an interior cell receives from an in-bounds (pre-wrap)
active neighbour at the same offset — and that contribution is nonzero. -/
theorem toroidal_wraparound (w h : ℕ) (K : ℤ → ℤ → ℝ) (dx dy a b : ℤ)
    (hdx0 : 0 < dx) (hdxw : dx < (w : ℤ)) (hdy0 : 0 < dy) (hdyh : dy < (h : ℤ))
    (ha0 : 0 ≤ a) (haw : a + dx < (w : ℤ)) (hb0 : 0 ≤ b) (hbh : b + dy < (h : ℤ))
    (hK : ¬ K dx dy < 1 / 1000) :
    convTerm w h (onehot 0 0) K ((w : ℤ) - dx) ((h : ℤ) - dy) dx dy = K dx dy ∧
    convTerm w h (onehot (a + dx) (b + dy)) K a b dx dy = K dx dy ∧
    convTerm w h (onehot 0 0) K ((w : ℤ) - dx) ((h : ℤ) - dy) dx dy ≠ 0 := by
  have hKpos : (0 : ℝ) < K dx dy := lt_of_lt_of_le (by norm_num) (not_lt.mp hK)
  have e1 : ((w : ℤ) - dx + dx) % (w : ℤ) = 0 := by
    rw [sub_add_cancel]
    exact Int.emod_self
  have e2 : ((h : ℤ) - dy + dy) % (h : ℤ) = 0 := by
    rw [sub_add_cancel]
    exact Int.emod_self
  have e3 : (a + dx) % (w : ℤ) = a + dx := Int.emod_eq_of_lt (by linarith) haw
  have e4 : (b + dy) % (h : ℤ) = b + dy := Int.emod_eq_of_lt (by linarith) hbh
  have c1 : convTerm w h (onehot 0 0) K ((w : ℤ) - dx) ((h : ℤ) - dy) dx dy = K dx dy := by
    unfold convTerm
    rw [if_neg hK, e1, e2]
    simp [onehot]
  have c2 : convTerm w h (onehot (a + dx) (b + dy)) K a b dx dy = K dx dy := by
    unfold convTerm
    rw [if_neg hK, e3, e4]
    simp [onehot]
  exact ⟨c1, c2, c1 ▸ ne_of_gt hKpos⟩

/-- Witness for C6: an 8×8 grid, uniform weight 1/2, offset (1, 1); the
wrapped contribution at the bottom-right cell equals the weight. -/
theorem toroidal_wraparound_witness :
    convTerm 8 8 (onehot 0 0) (fun _ _ => 1 / 2) ((8 : ℤ) - 1) ((8 : ℤ) - 1) 1 1 =
      (1 / 2 : ℝ) := by
  have hmain := toroidal_wraparound 8 8 (fun _ _ => 1 / 2) 1 1 3 3
    (by norm_num) (by norm_num) (by norm_num) (by norm_num)
    (by norm_num) (by norm_num) (by norm_num) (by norm_num) (by norm_num)
  exact hmain.1

/-- Claim C7: the mutation random walk on `(mu, sigma, dt)` — bounded
increment then clamp into the safe range, per tick — keeps the start and
every intermediate and final state inside the documented ranges, for every
increment sequence of any length. -/
theorem mutation_walk_stays_in_range :
    ∀ (incs : List (ℝ × ℝ × ℝ)) (start : ℝ × ℝ × ℝ),
      (∀ d ∈ incs, |d.1| ≤ MUTATION_MU_STEP ∧ |d.2.1| ≤ MUTATION_SIGMA_STEP ∧
        |d.2.2| ≤ MUTATION_DT_STEP) →
      mutInRange start →
      ∀ s ∈ mutWalk start incs, mutInRange s := by
  intro incs
  induction incs with
  | nil =>
    intro start _ h0 s hs
    simp [mutWalk] at hs
    subst hs
    exact h0
  | cons d ds ih =>
    intro start hb h0 s hs
    rw [show mutWalk start (d :: ds) = start :: mutWalk (mutTick start d) ds from rfl] at hs
    rcases List.mem_cons.mp hs with heq | hmem
    · subst heq
      exact h0
    · exact ih (mutTick start d) (fun e he => hb e (List.mem_cons_of_mem _ he))
        (mutTick_mem start d) s hmem

/-- Witness for C7: one tick from the Orbium parameters with the maximal
positive increments stays in range. -/
theorem mutation_walk_stays_in_range_witness :
    mutInRange (mutTick (3 / 20, 3 / 200, 1 / 10) (3 / 1000, 1 / 1000, 5 / 1000)) := by
  have hmain := mutation_walk_stays_in_range
    [(3 / 1000, 1 / 1000, 5 / 1000)] (3 / 20, 3 / 200, 1 / 10)
    (by
      intro d hd
      simp only [List.mem_singleton] at hd
      subst hd
      refine ⟨?_, ?_, ?_⟩ <;>
        simp [MUTATION_MU_STEP, MUTATION_SIGMA_STEP, MUTATION_DT_STEP, abs_le] <;>
        norm_num)
    (by refine ⟨?_, ?_, ?_, ?_, ?_, ?_⟩ <;> norm_num)
  exact hmain (mutTick (3 / 20, 3 / 200, 1 / 10) (3 / 1000, 1 / 1000, 5 / 1000))
    (by simp [mutWalk])

/-- Claim C8: stamping max-blends exactly inside the pattern's bounding
box in UV space (centre `(px, py)`, extent `(sx, sy)`): a cell inside the
box becomes `max(cell, patternValue)` and every cell outside the box is
left unchanged. -/
theorem stamp_maxblend_box (cur ux uy px py sx sy : ℝ) (pat : ℝ → ℝ → ℝ)
    (hsx : 0 < sx) (hsy : 0 < sy) :
    ((|ux - px| ≤ sx / 2 ∧ |uy - py| ≤ sy / 2) →
      stampCell cur ux uy px py sx sy pat =
        max cur (pat ((ux - px) / sx + 1 / 2) ((uy - py) / sy + 1 / 2))) ∧
    (¬(|ux - px| ≤ sx / 2 ∧ |uy - py| ≤ sy / 2) →
      stampCell cur ux uy px py sx sy pat = cur) := by
  have hx := uvbox_iff sx (ux - px) hsx
  have hy := uvbox_iff sy (uy - py) hsy
  simp only [stampCell]
  constructor
  · rintro ⟨h1, h2⟩
    obtain ⟨a1, a2⟩ := hx.mpr h1
    obtain ⟨b1, b2⟩ := hy.mpr h2
    rw [if_pos ⟨a1, a2, b1, b2⟩]
  · intro hnot
    rw [if_neg]
    rintro ⟨c1, c2, c3, c4⟩
    exact hnot ⟨hx.mp ⟨c1, c2⟩, hy.mp ⟨c3, c4⟩⟩

/-- Witness for C8: a cell at the stamp centre max-blends with the
pattern value there. -/
theorem stamp_maxblend_box_witness :
    stampCell (1 / 4) (1 / 2) (1 / 2) (1 / 2) (1 / 2) (3 / 20) (3 / 20)
      (fun _ _ => 1 / 2) = max (1 / 4) (1 / 2 : ℝ) := by
  have hmain := stamp_maxblend_box (1 / 4) (1 / 2) (1 / 2) (1 / 2) (1 / 2)
    (3 / 20) (3 / 20) (fun _ _ => 1 / 2) (by norm_num) (by norm_num)
  exact hmain.1 (by norm_num)

/-- Claim C9 (refuted by the source): `readAverageDensity` allocates a
fresh `Float32Array(w*h*4)` readback buffer on every call; at the default
256×256 grid that is 262144 elements per call, not zero. -/
theorem readAverageDensity_allocates :
    readDensityAllocElems 256 256 = 262144 ∧ 0 < readDensityAllocElems 256 256 := by
  constructor <;> norm_num [readDensityAllocElems]

/-- Claim C10: `setState` then `readState` round-trips: `setState` writes
into the currently-active buffer without toggling the ping-pong flag, and
`readState` reads that same buffer, so the read-back array equals the
uploaded data whenever its length is `width*height`. -/
theorem setState_readState_roundtrip (s : GLState) (data : List ℝ)
    (hlen : data.length = s.width * s.height) :
    readState (setState s data) = data ∧ (setState s data).currentIsA = s.currentIsA := by
  have hcb : curBuf (setState s data) = writeCells (curBuf s) (s.width * s.height) data := by
    by_cases hA : s.currentIsA = true
    · simp [setState, curBuf, hA]
    · simp [setState, curBuf, hA]
  have hw : (setState s data).width = s.width := by
    unfold setState; split <;> rfl
  have hh : (setState s data).height = s.height := by
    unfold setState; split <;> rfl
  constructor
  · rw [readState, hw, hh, hcb, ← hlen]
    have hagree : ∀ i ∈ List.range data.length,
        writeCells (curBuf s) data.length data i = data.getD i 0 := by
      intro i hi
      rw [List.mem_range] at hi
      simp [writeCells, hi]
    rw [List.map_congr_left hagree]
    exact map_range_getD data
  · unfold setState
    split <;> rfl

/-- Witness for C10: a concrete 2×2 round-trip. -/
theorem setState_readState_roundtrip_witness :
    readState (setState ⟨2, 2, fun _ => 0, fun _ => 0, true⟩ [0, 1 / 2, 1 / 4, 1]) =
      [0, 1 / 2, 1 / 4, 1] :=
  (setState_readState_roundtrip ⟨2, 2, fun _ => 0, fun _ => 0, true⟩
    [0, 1 / 2, 1 / 4, 1] rfl).1

/-- The bell is strictly positive everywhere. -/
theorem bell_pos (x mu sigma : ℝ) : 0 < bell x mu sigma :=
  Real.exp_pos _

/-- Ring heights read through `getD` are positive at in-range indices. -/
theorem peaks_getD_pos (p : KernelParams) (hpk : ∀ a ∈ p.peaks, 0 < a)
    (i : ℕ) (hi : i < p.peaks.length) : 0 < p.peaks.getD i 0 := by
  rw [List.getD_eq_getElem p.peaks 0 hi]
  exact hpk _ (List.getElem_mem hi)

/-- Every term of the ring mixture is nonnegative. -/
theorem kernelShell_nonneg (p : KernelParams) (hpk : ∀ a ∈ p.peaks, 0 < a)
    (r : ℝ) : 0 ≤ kernelShell p r := by
  unfold kernelShell
  refine Finset.sum_nonneg ?_
  intro i hi
  rw [Finset.mem_range] at hi
  exact mul_nonneg (peaks_getD_pos p hpk i hi).le (bell_pos _ _ _).le

/-- The ring mixture is strictly positive when there is at least one
ring, all of positive height. -/
theorem kernelShell_pos (p : KernelParams) (hne : p.peaks ≠ [])
    (hpk : ∀ a ∈ p.peaks, 0 < a) (r : ℝ) : 0 < kernelShell p r := by
  unfold kernelShell
  refine Finset.sum_pos ?_ ?_
  · intro i hi
    rw [Finset.mem_range] at hi
    exact mul_pos (peaks_getD_pos p hpk i hi) (bell_pos _ _ _)
  · exact ⟨0, Finset.mem_range.mpr (List.length_pos.mpr hne)⟩

/-- Unnormalized kernel entries are nonnegative. -/
theorem kernelRaw_nonneg (p : KernelParams) (hpk : ∀ a ∈ p.peaks, 0 < a)
    (dx dy : ℤ) : 0 ≤ kernelRaw p dx dy := by
  simp only [kernelRaw]
  split
  · exact le_refl 0
  · exact kernelShell_nonneg p hpk _

/-- The centre entry evaluates the ring mixture at distance 0. -/
theorem kernelRaw_center (p : KernelParams) : kernelRaw p 0 0 = kernelShell p 0 := by
  simp only [kernelRaw]
  norm_num [Real.sqrt_zero]

/-- The centre offset is scanned by the kernel loops. -/
theorem center_mem_offsets (R : ℕ) : ((0 : ℤ), (0 : ℤ)) ∈ offsets R := by
  simp only [offsets, Finset.mem_product, Finset.mem_Icc]
  omega

/-- For a spec with at least one positive-height ring, the unnormalized
kernel sum is strictly positive (the centre entry already is). -/
theorem kernelRawSum_pos (p : KernelParams) (hne : p.peaks ≠ [])
    (hpk : ∀ a ∈ p.peaks, 0 < a) : 0 < kernelRawSum p := by
  have hcenter : 0 < kernelRaw p 0 0 := by
    rw [kernelRaw_center]
    exact kernelShell_pos p hne hpk 0
  have hle : kernelRaw p 0 0 ≤ kernelRawSum p :=
    Finset.single_le_sum (fun q _ => kernelRaw_nonneg p hpk q.1 q.2)
      (center_mem_offsets p.radius)
  linarith

/-- For every valid KernelSpec, `generateKernel` yields a kernel with
every entry nonnegative (and a well-defined real, hence finite) whose
entries sum to exactly 1 in real arithmetic — in particular within the
1e-2 tolerance the spec allows for float accumulation. -/
theorem kernel_normalized (p : KernelParams) (hv : ValidKernelParams p) :
    (∀ dx dy : ℤ, 0 ≤ generateKernel p dx dy) ∧
    |generateKernelSum p - 1| ≤ 1 / 100 := by
  obtain ⟨hR, hne, hc, hwl, hpk, hwd⟩ := hv
  have hS : 0 < kernelRawSum p := kernelRawSum_pos p hne hpk
  constructor
  · intro dx dy
    unfold generateKernel
    rw [if_pos hS]
    exact div_nonneg (kernelRaw_nonneg p hpk dx dy) hS.le
  · unfold generateKernelSum
    have hterm : ∀ q ∈ offsets p.radius,
        generateKernel p q.1 q.2 = kernelRaw p q.1 q.2 / kernelRawSum p := by
      intro q _
      unfold generateKernel
      rw [if_pos hS]
    rw [Finset.sum_congr rfl hterm, ← Finset.sum_div]
    have hsum : (∑ q in offsets p.radius, kernelRaw p q.1 q.2) = kernelRawSum p := rfl
    rw [hsum, div_self hS.ne']
    norm_num

/-- `kernel_normalized` instantiated at the Orbium kernel spec (radius
13, one ring of centre 0.5, width 0.15, height 1). -/
theorem kernel_normalized_orbium :
    |generateKernelSum ⟨13, [1], [1 / 2], [3 / 20]⟩ - 1| ≤ 1 / 100 := by
  have hv : ValidKernelParams ⟨13, [1], [1 / 2], [3 / 20]⟩ := by
    unfold ValidKernelParams
    refine ⟨by norm_num, by simp, rfl, rfl, ?_, ?_⟩ <;>
      · intro a ha
        rw [List.mem_singleton] at ha
        subst ha
        norm_num
  exact (kernel_normalized ⟨13, [1], [1 / 2], [3 / 20]⟩ hv).2

/-- Every entry of the engine kernel table is nonnegative when all ring
weights are (the mixture is a weighted sum of exponentials). -/
theorem engineKernelEntry_nonneg (R : ℕ) (rings : List KernelRing) (ox oy : ℤ)
    (hw : ∀ ring ∈ rings, 0 ≤ ring.weight) : 0 ≤ engineKernelEntry R rings ox oy := by
  simp only [engineKernelEntry]
  split
  · exact le_refl 0
  · refine List.sum_nonneg ?_
    intro x hx
    rcases List.mem_map.mp hx with ⟨ring, hring, rfl⟩
    exact mul_nonneg (hw ring hring) (Real.exp_pos _).le

/-- Claim C2 (amended): for every valid KernelSpec, `generateKernel` (the
buildKernel of the live WebGL1 path) has all entries nonnegative
(well-defined reals, hence finite) with total exactly 1 — within the 1e-2
tolerance; the WebGL2 engine's `updateKernel` (also cited by the claim)
likewise yields nonnegative finite entries, but stores its table
unnormalized — its entry sum is the accumulated `kernelNorm`, applied
only in the step shader, and need not be within 1e-2 of 1, as the
counterexample shows. -/
theorem kernel_normalized_amended :
    (∀ p : KernelParams, ValidKernelParams p →
        (∀ dx dy : ℤ, 0 ≤ generateKernel p dx dy) ∧
        |generateKernelSum p - 1| ≤ 1 / 100) ∧
    (∀ (R : ℕ) (rings : List KernelRing) (ox oy : ℤ),
        (∀ ring ∈ rings, 0 ≤ ring.weight) →
        0 ≤ engineKernelEntry R rings ox oy) := by
  constructor
  · intro p hv
    exact kernel_normalized p hv
  · intro R rings ox oy hw
    exact engineKernelEntry_nonneg R rings ox oy hw

/-- Witness for C2 (amended): the Orbium spec for the `generateKernel`
conjunct and the Orbium engine rings for the nonnegativity conjunct. -/
theorem kernel_normalized_amended_witness :
    |generateKernelSum ⟨13, [1], [1 / 2], [3 / 20]⟩ - 1| ≤ 1 / 100 ∧
    0 ≤ engineKernelEntry 13 ORBIUM_RINGS 0 0 := by
  constructor
  · refine (kernel_normalized_amended.1 ⟨13, [1], [1 / 2], [3 / 20]⟩ ?_).2
    unfold ValidKernelParams
    refine ⟨by norm_num, by simp, rfl, rfl, ?_, ?_⟩ <;>
      · intro a ha
        rw [List.mem_singleton] at ha
        subst ha
        norm_num
  · refine kernel_normalized_amended.2 13 ORBIUM_RINGS 0 0 ?_
    intro ring hring
    rw [ORBIUM_RINGS, List.mem_singleton] at hring
    subst hring
    norm_num

/-- Claim C2 counterexample: the engine kernel table is unnormalized.
For the valid single-ring spec (centre 1/2, width 1, height 1) at radius
1 — listed validity facts first — the sum of all engine table entries
differs from 1 by more than the 1e-2 tolerance: the centre entry and the
(1, 0) entry are each exp(-1/8) ≥ 7/8, and all entries are nonnegative,
so the sum is at least 7/4. -/
theorem kernel_normalized_counterexample :
    ((0 : ℝ) ≤ 1 / 2 ∧ (1 / 2 : ℝ) ≤ 1 ∧ (0 : ℝ) < 1 ∧ (0 : ℝ) < 1) ∧
    1 / 100 < |engineKernelSum 1 [⟨1 / 2, 1, 1⟩] - 1| := by
  refine ⟨⟨by norm_num, by norm_num, by norm_num, by norm_num⟩, ?_⟩
  have hnn : ∀ q ∈ offsets 1,
      0 ≤ engineKernelEntry 1 [⟨1 / 2, 1, 1⟩] q.1 q.2 := by
    intro q _
    apply engineKernelEntry_nonneg
    intro ring hring
    rw [List.mem_singleton] at hring
    subst hring
    norm_num
  have hsub : ({((0 : ℤ), (0 : ℤ)), ((1 : ℤ), (0 : ℤ))} : Finset (ℤ × ℤ)) ⊆ offsets 1 := by
    intro q hq
    simp only [Finset.mem_insert, Finset.mem_singleton] at hq
    rcases hq with rfl | rfl <;>
      · simp only [offsets, Finset.mem_product, Finset.mem_Icc]
        omega
  have hsumle : ∑ q in ({((0 : ℤ), (0 : ℤ)), ((1 : ℤ), (0 : ℤ))} : Finset (ℤ × ℤ)),
      engineKernelEntry 1 [⟨1 / 2, 1, 1⟩] q.1 q.2 ≤ engineKernelSum 1 [⟨1 / 2, 1, 1⟩] :=
    Finset.sum_le_sum_of_subset_of_nonneg hsub (fun q hq _ => hnn q hq)
  have hpair : ∑ q in ({((0 : ℤ), (0 : ℤ)), ((1 : ℤ), (0 : ℤ))} : Finset (ℤ × ℤ)),
      engineKernelEntry 1 [⟨1 / 2, 1, 1⟩] q.1 q.2 =
      engineKernelEntry 1 [⟨1 / 2, 1, 1⟩] 0 0 + engineKernelEntry 1 [⟨1 / 2, 1, 1⟩] 1 0 := by
    rw [Finset.sum_insert (by decide), Finset.sum_singleton]
  have he0 : engineKernelEntry 1 [⟨1 / 2, 1, 1⟩] 0 0 = Real.exp (-(1 / 8)) := by
    simp only [engineKernelEntry]
    norm_num [Real.sqrt_zero]
    simp only [engineRingTerm]
    norm_num
  have he1 : engineKernelEntry 1 [⟨1 / 2, 1, 1⟩] 1 0 = Real.exp (-(1 / 8)) := by
    simp only [engineKernelEntry]
    norm_num [Real.sqrt_one]
    simp only [engineRingTerm]
    norm_num
  have hexp : (7 : ℝ) / 8 ≤ Real.exp (-(1 / 8)) := by
    have h := Real.add_one_le_exp (-(1 / 8) : ℝ)
    linarith
  have hS : (7 : ℝ) / 4 ≤ engineKernelSum 1 [⟨1 / 2, 1, 1⟩] := by
    rw [hpair, he0, he1] at hsumle
    linarith
  calc (1 : ℝ) / 100 < 3 / 4 := by norm_num
    _ ≤ |engineKernelSum 1 [⟨1 / 2, 1, 1⟩] - 1| := by
        rw [abs_of_nonneg (by linarith)]
        linarith

/-- Claim C5 (amended): `generateKernel` zeroes every entry at normalized
distance > 1, exactly as claimed; the WebGL2 engine's `updateKernel`,
however, zeroes entries only beyond raw distance R + 0.5, so only that
weaker cutoff holds for it (and entries with normalized distance in
(1, 1 + 0.5/R] can be nonzero, as the counterexample shows). -/
theorem kernel_locality_amended :
    (∀ (p : KernelParams) (dx dy : ℤ),
        Real.sqrt ((dx * dx + dy * dy : ℤ) : ℝ) / (p.radius : ℝ) > 1 →
        generateKernel p dx dy = 0) ∧
    (∀ (R : ℕ) (rings : List KernelRing) (ox oy : ℤ),
        Real.sqrt ((ox * ox + oy * oy : ℤ) : ℝ) > (R : ℝ) + 1 / 2 →
        engineKernelEntry R rings ox oy = 0) := by
  constructor
  · intro p dx dy hr
    have hz : kernelRaw p dx dy = 0 := by
      simp only [kernelRaw]
      rw [if_pos hr]
    unfold generateKernel
    rw [hz]
    split
    · exact zero_div _
    · rfl
  · intro R rings ox oy hd
    simp only [engineKernelEntry]
    rw [if_pos hd]

/-- Witness for C5 (amended): offset (13, 13) at radius 13 is zeroed by
`generateKernel`, and offset (14, 14) is zeroed by the engine kernel. -/
theorem kernel_locality_amended_witness :
    generateKernel ⟨13, [1], [1 / 2], [3 / 20]⟩ 13 13 = 0 ∧
    engineKernelEntry 13 ORBIUM_RINGS 14 14 = 0 := by
  constructor
  · apply kernel_locality_amended.1
    have hcast : ((13 * 13 + 13 * 13 : ℤ) : ℝ) = 338 := by norm_num
    rw [hcast]
    have h169 : Real.sqrt 169 = 13 := by
      rw [show (169 : ℝ) = 13 ^ 2 by norm_num]
      exact Real.sqrt_sq (by norm_num)
    have hgt : (13 : ℝ) < Real.sqrt 338 := by
      rw [← h169]
      exact Real.sqrt_lt_sqrt (by norm_num) (by norm_num)
    show Real.sqrt 338 / ((13 : ℕ) : ℝ) > 1
    have h13 : ((13 : ℕ) : ℝ) = 13 := by norm_num
    rw [h13]
    exact (one_lt_div (by norm_num)).mpr hgt
  · apply kernel_locality_amended.2
    have hcast : ((14 * 14 + 14 * 14 : ℤ) : ℝ) = 392 := by norm_num
    rw [hcast]
    have h392 : (27 / 2 : ℝ) < Real.sqrt 392 := by
      have hsq : Real.sqrt ((27 / 2) ^ 2) = 27 / 2 := Real.sqrt_sq (by norm_num)
      rw [← hsq]
      exact Real.sqrt_lt_sqrt (by norm_num) (by norm_num)
    have : ((13 : ℕ) : ℝ) + 1 / 2 = 27 / 2 := by norm_num
    rw [this]
    exact h392

/-- Claim C5 counterexample: with the Orbium rings at radius 13, the
engine kernel entry at offset (13, 1) has normalized distance
sqrt(170)/13 > 1 and yet is strictly nonzero, because `updateKernel`
only zeroes entries beyond raw distance 13.5. -/
theorem kernel_locality_counterexample :
    Real.sqrt ((13 * 13 + 1 * 1 : ℤ) : ℝ) / ((13 : ℕ) : ℝ) > 1 ∧
    engineKernelEntry 13 ORBIUM_RINGS 13 1 ≠ 0 := by
  have hcast : ((13 * 13 + 1 * 1 : ℤ) : ℝ) = 170 := by norm_num
  have h169 : Real.sqrt 169 = 13 := by
    rw [show (169 : ℝ) = 13 ^ 2 by norm_num]
    exact Real.sqrt_sq (by norm_num)
  have hgt : (13 : ℝ) < Real.sqrt 170 := by
    rw [← h169]
    exact Real.sqrt_lt_sqrt (by norm_num) (by norm_num)
  have hle : Real.sqrt 170 ≤ 27 / 2 := by
    have hsq : Real.sqrt ((27 / 2) ^ 2) = 27 / 2 := Real.sqrt_sq (by norm_num)
    rw [← hsq]
    exact Real.sqrt_le_sqrt (by norm_num)
  constructor
  · rw [hcast]
    have h13 : ((13 : ℕ) : ℝ) = 13 := by norm_num
    rw [h13]
    exact (one_lt_div (by norm_num)).mpr hgt
  · simp only [engineKernelEntry]
    split
    · next hcond =>
      exfalso
      rw [hcast] at hcond
      have h13 : ((13 : ℕ) : ℝ) = 13 := by norm_num
      rw [h13] at hcond
      linarith
    · next hcond =>
      simp [ORBIUM_RINGS, engineRingTerm, Real.exp_ne_zero]

/-- Claim C3 (evaluating the failing input): `generateKernel` has no
degenerate-width guard — a ring of width -0.15 contributes exactly as one
of width +0.15 would, strictly positive at the centre cell, instead of
being treated as a zero contribution. -/
theorem degenerate_ring_not_guarded :
    0 < kernelRaw ⟨5, [1], [1 / 2], [-(3 / 20)]⟩ 0 0 ∧
    kernelRaw ⟨5, [1], [1 / 2], [-(3 / 20)]⟩ 0 0 =
      kernelRaw ⟨5, [1], [1 / 2], [3 / 20]⟩ 0 0 := by
  constructor
  · rw [kernelRaw_center]
    refine kernelShell_pos _ (by simp) ?_ 0
    intro a ha
    rw [List.mem_singleton] at ha
    subst ha
    norm_num
  · rw [kernelRaw_center, kernelRaw_center]
    unfold kernelShell
    simp only [List.length_singleton, Finset.sum_range_one, List.getD_cons_zero]
    norm_num [bell]

/-- Claim C4 (amended): on an all-zero field the computed potential is 0
at every cell, so the zero field is a fixed point of `step` whenever
`dt ≥ 0` and the growth rate at potential 0 is nonpositive — which holds
for every catalog species; for valid growth params with a positive growth
rate at 0 (wide sigma) the zero field is not fixed, as the counterexample
shows. -/
theorem zero_fixed_point_amended (w h : ℕ) (K : ℤ → ℤ → ℝ) (R : ℕ)
    (mu sigma dt : ℝ) (x y : ℤ) (hdt : 0 ≤ dt) (hg : growth 0 mu sigma ≤ 0) :
    stepCell w h (fun _ _ => 0) K R mu sigma dt x y = 0 := by
  have hps : potentialSum w h (fun _ _ => 0) K R x y = 0 := by
    unfold potentialSum convTerm
    simp
  have hpa : potentialAt w h (fun _ _ => 0) K R x y = 0 := by
    unfold potentialAt
    rw [hps]
    split
    · exact zero_div _
    · rfl
  unfold stepCell
  rw [hpa]
  have hmul : dt * growth 0 mu sigma ≤ 0 :=
    mul_nonpos_iff.mpr (Or.inl ⟨hdt, hg⟩)
  have hzero : (fun _ _ => (0 : ℝ)) x y + dt * growth 0 mu sigma ≤ 0 := by
    simpa using hmul
  rw [max_eq_left hzero, min_eq_right zero_le_one]

/-- Witness for C4 (amended): Orbium growth parameters (mu 0.15,
sigma 0.015, dt 0.1) on a 4×4 zero field with a zero kernel. -/
theorem zero_fixed_point_amended_witness :
    stepCell 4 4 (fun _ _ => 0) (fun _ _ => 0) 1 (3 / 20) (3 / 200) (1 / 10) 0 0 = 0 := by
  apply zero_fixed_point_amended
  · norm_num
  · have h51 : (51 : ℝ) ≤ Real.exp 50 := by
      have h := Real.add_one_le_exp (50 : ℝ)
      linarith
    have hexp : Real.exp (-50 : ℝ) ≤ 1 / 51 := by
      rw [Real.exp_neg]
      rw [show (1 : ℝ) / 51 = 51⁻¹ by norm_num]
      exact inv_le_inv_of_le (by norm_num) h51
    have hb : bell 0 (3 / 20) (3 / 200) = Real.exp (-50) := by
      unfold bell
      norm_num
    unfold growth
    rw [hb]
    linarith

/-- Claim C4 counterexample: with the valid growth parameters mu = 0.5,
sigma = 1 (and dt = 0.1, and the normalized one-point kernel), a step on
the all-zero 4×4 field produces a nonzero cell: the growth rate at
potential 0 is 2·exp(-1/8) - 1 > 0, so the zero state is not a fixed
point for arbitrary valid parameters. -/
theorem zero_fixed_point_counterexample :
    (0 : ℝ) < 1 / 2 ∧ (1 / 2 : ℝ) < 1 ∧ (0 : ℝ) < 1 ∧ (0 : ℝ) < 1 / 10 ∧
    stepCell 4 4 (fun _ _ => 0) (fun q r => if q = 0 ∧ r = 0 then 1 else 0) 1
      (1 / 2) 1 (1 / 10) 0 0 ≠ 0 := by
  refine ⟨by norm_num, by norm_num, by norm_num, by norm_num, ?_⟩
  have hps : potentialSum 4 4 (fun _ _ => 0)
      (fun q r => if q = 0 ∧ r = 0 then (1 : ℝ) else 0) 1 0 0 = 0 := by
    unfold potentialSum convTerm
    simp
  have hpa : potentialAt 4 4 (fun _ _ => 0)
      (fun q r => if q = 0 ∧ r = 0 then (1 : ℝ) else 0) 1 0 0 = 0 := by
    unfold potentialAt
    rw [hps]
    split
    · exact zero_div _
    · rfl
  unfold stepCell
  rw [hpa]
  have hexp : (7 : ℝ) / 8 ≤ Real.exp (-(1 / 8)) := by
    have h := Real.add_one_le_exp (-(1 / 8) : ℝ)
    linarith
  have hb : bell 0 (1 / 2) 1 = Real.exp (-(1 / 8)) := by
    unfold bell
    norm_num
  have hg : 0 < growth 0 (1 / 2) 1 := by
    unfold growth
    rw [hb]
    linarith
  have hval : 0 < (fun _ _ => (0 : ℝ)) 0 0 + 1 / 10 * growth 0 (1 / 2) 1 := by
    simp only []
    nlinarith
  have hmax : (0 : ℝ) < max 0 ((fun _ _ => (0 : ℝ)) 0 0 + 1 / 10 * growth 0 (1 / 2) 1) :=
    lt_max_of_lt_right hval
  exact ne_of_gt (lt_min one_pos hmax)

end LeniaLab
